import Mathlib

/-!
Verification of the CLI-binary lifecycle manager and process/shell execution
layer of the jean-nightly repository.

The repository's visible source (`src/jean/src-tauri/src/gh_cli/mod.rs` and
`src/src-tauri/src/platform/mod.rs`) is module wiring only: it declares the
`commands`, `config`, `process` and `shell` modules but their bodies are not
part of the visible tree.  Every definition below is therefore modelled from
the specification's component contracts (spec.md sections 3-7), faithful to
its words, and the claims are settled against these models.
-/

/-- Modelled from the spec: byte sequences (downloaded artifacts, captured
standard output/error) are modelled as lists of natural numbers. -/
abbrev Bytes := List Nat

/-- Modelled from the spec (section 3, missing `gh_cli::commands`):
a semantic version `major.minor.patch`. -/
structure Version where
  major : Nat
  minor : Nat
  patch : Nat
deriving DecidableEq, Repr

/-- Modelled from the spec: strict semantic ordering on versions,
lexicographic on (major, minor, patch). -/
def semLt (a b : Version) : Bool :=
  if a.major ≠ b.major then decide (a.major < b.major)
  else if a.minor ≠ b.minor then decide (a.minor < b.minor)
  else decide (a.patch < b.patch)

/-- Modelled from the spec (section 3): operating system of a platform target. -/
inductive OSKind
  | windows
  | macos
  | linux
deriving DecidableEq, Repr

/-- Modelled from the spec (section 3): CPU architecture of a platform target. -/
inductive ArchKind
  | x64
  | arm64
deriving DecidableEq, Repr

/-- Modelled from the spec (section 3): PlatformTarget =
{operating_system, architecture}. -/
structure PlatformTarget where
  os : OSKind
  arch : ArchKind
deriving DecidableEq, Repr

/-- Modelled from the spec (section 3): InstalledBinary =
{absolute_path, version, install_timestamp}. -/
structure InstalledBinary where
  absolutePath : String
  version : Version
  installTimestamp : Nat
deriving DecidableEq, Repr

/-- Modelled from the spec (section 3): ReleaseArtifact =
{version, download_url, checksum, platform_target}. -/
structure ReleaseArtifact where
  version : Version
  downloadUrl : String
  checksum : Nat
  platformTarget : PlatformTarget
deriving DecidableEq, Repr

/-- Modelled from the spec (section 3): CommandSpec, the input of one process
execution. -/
structure CommandSpec where
  executablePath : String
  arguments : List String
  workingDirectory : Option String
  environmentOverrides : List (String × String)
  timeout : Option Nat
deriving DecidableEq, Repr

/-- Modelled from the spec (section 3): CommandResult, the immutable result of
one execution; `exitCode` absent signals termination by signal/timeout. -/
structure CommandResult where
  exitCode : Option Int
  standardOutput : Bytes
  standardError : Bytes
  duration : Nat
deriving DecidableEq, Repr

/-- Modelled from the spec (section 7): the installer/version-manager error
kinds. -/
inductive InstallError
  | downloadFailed
  | integrityCheckFailed
  | installationUnverifiable
  | unsupportedPlatform
deriving DecidableEq, Repr

/-- Modelled from the spec (section 7): the executor error kinds. -/
inductive ExecError
  | spawnFailed
  | timeoutExceeded
deriving DecidableEq, Repr

/-- Modelled from the spec (section 4.6): a facade `run` failure is either the
propagated ensure failure or the propagated execution failure. -/
inductive RunError
  | ensureFailed (e : InstallError)
  | execFailed (e : ExecError)
deriving DecidableEq, Repr

/-- Modelled from the spec: the checksum function of the integrity check.  The
concrete algorithm is not visible; the model uses an executable stand-in
(length-seeded byte sum).  The claims only depend on comparing computed
against declared checksums. -/
def checksum (b : Bytes) : Nat :=
  b.foldl (fun a x => a + x + 1) b.length

/-- Modelled from the spec (section 4.3): the probe parses a version string
out of a complete binary; the model decodes a three-entry byte list as
`major.minor.patch` and fails to parse anything else. -/
def probeBytes (b : Bytes) : Option Version :=
  match b with
  | [ma, mi, pa] => some ⟨ma, mi, pa⟩
  | _ => none

/-- Modelled from the spec (sections 4.3/4.4): the state of one file-system
path — absent, truncated mid-write, or completely written. -/
inductive FileState
  | absent
  | truncated (b : Bytes)
  | complete (b : Bytes)
deriving DecidableEq, Repr

/-- Modelled from the spec (section 6): the file system visible to the
subsystem — the canonical install path (with its executable bit) and the
per-operation temporary download path. -/
structure FS where
  canonical : FileState
  canonicalExec : Bool
  temp : FileState
deriving DecidableEq, Repr

/-- Modelled from the spec (section 4.4, missing `gh_cli::commands`): the
primitive file-system operations an install attempt performs.  Only
`renameTempToCanonical` ever touches the canonical path, and it is atomic. -/
inductive FsOp
  | writeTempTrunc (b : Bytes)
  | writeTempFull (b : Bytes)
  | delTemp
  | renameTempToCanonical
deriving DecidableEq, Repr

/-- Modelled from the spec: the effect of one primitive file-system
operation.  A rename atomically moves the temporary file onto the canonical
path (carrying the executable permission set on it). -/
def applyOp (fs : FS) : FsOp → FS
  | .writeTempTrunc b => { fs with temp := .truncated b }
  | .writeTempFull b => { fs with temp := .complete b }
  | .delTemp => { fs with temp := .absent }
  | .renameTempToCanonical =>
      { canonical := fs.temp, canonicalExec := true, temp := .absent }

/-- Apply a sequence of file-system operations in order. -/
def applyOps (ops : List FsOp) (fs : FS) : FS :=
  ops.foldl applyOp fs

/-- Modelled from the spec (section 4.4): downloading to the temporary path
proceeds in stages, each leaving a longer truncated prefix of the artifact at
the temporary path. -/
def downloadOps (b : Bytes) : List FsOp :=
  (List.range b.length).map (fun i => FsOp.writeTempTrunc (b.take (i + 1)))

/-- Modelled from the spec (section 4.4, missing `gh_cli::commands`): the
full file-system trace of one install attempt — stage the download at the
temporary path, finish the temporary file, then either atomically rename into
place (checksum verified) or discard the download (checksum mismatch). -/
def installOps (art : ReleaseArtifact) (downloaded : Bytes) : List FsOp :=
  downloadOps downloaded ++ [FsOp.writeTempFull downloaded] ++
    (if checksum downloaded = art.checksum then [FsOp.renameTempToCanonical]
     else [FsOp.delTemp])

/-- An operation that never touches the canonical path or its permission bit. -/
def tempOnly (op : FsOp) : Bool :=
  match op with
  | .renameTempToCanonical => false
  | _ => true

/-- Modelled from the spec (section 4.4): the outcome of one complete install
attempt — a checksum mismatch fails with `IntegrityCheckFailed` after
discarding the download; a verified artifact is renamed into place. -/
def installAttempt (fs : FS) (art : ReleaseArtifact) (downloaded : Bytes) :
    Except InstallError Unit × FS :=
  let fsA := applyOps (installOps art downloaded) fs
  if checksum downloaded = art.checksum then (Except.ok (), fsA)
  else (Except.error InstallError.integrityCheckFailed, fsA)

/-- Modelled from the spec (glossary): the canonical install path, a fixed
application-owned location. -/
def canonicalPath : String := "/app-managed/gh"

/-- Modelled from the spec (section 4.3): the CommandSpec of the version
probe run against an installed file. -/
def mkProbeSpec (path : String) : CommandSpec :=
  { executablePath := path, arguments := ["--version"], workingDirectory := none,
    environmentOverrides := [], timeout := none }

/-- Modelled from the spec (section 3 invariants): the CommandSpecs ever built
against the file a download produced — only the version re-probe, and only
once the checksum has been verified; an unverified download has no
CommandSpec built against it. -/
def specsBuiltAgainstDownload (art : ReleaseArtifact) (downloaded : Bytes) :
    List CommandSpec :=
  if checksum downloaded = art.checksum then [mkProbeSpec canonicalPath] else []

/-- Modelled from the spec (section 4.3): the individual failures of the
locator's check chain. -/
inductive LocateFailure
  | missing
  | notExecutable
  | probeFailed
  | parseFailed
deriving DecidableEq, Repr

/-- Modelled from the spec (section 4.3, missing `gh_cli::commands`): the
locator's check chain — file exists, is marked executable, version probe runs
and parses — with each failure made explicit.  A truncated file exists but is
not a runnable binary, so its probe fails to run. -/
def checkChain (fs : FS) : Except LocateFailure InstalledBinary :=
  match fs.canonical with
  | .absent => Except.error LocateFailure.missing
  | .truncated _ =>
      if fs.canonicalExec then Except.error LocateFailure.probeFailed
      else Except.error LocateFailure.notExecutable
  | .complete b =>
      if fs.canonicalExec then
        match probeBytes b with
        | some v => Except.ok ⟨canonicalPath, v, 0⟩
        | none => Except.error LocateFailure.parseFailed
      else Except.error LocateFailure.notExecutable

/-- Modelled from the spec (section 4.3): the locator reports every check
failure as "not installed" (`none`), never as an error. -/
def locate (fs : FS) : Option InstalledBinary :=
  (checkChain fs).toOption

/-- Operation counters: install operations performed and network calls made. -/
structure Stats where
  installs : Nat
  networkCalls : Nat
deriving DecidableEq, Repr

/-- Modelled from the spec (section 6): the release index collaborator —
resolving a pinned version over the network yields the matching
ReleaseArtifact together with the bytes its download produces, or nothing. -/
def ReleaseIndex : Type := Version → Option (ReleaseArtifact × Bytes)

/-- Whether the version manager must install: current absent, or strictly
older than the target under semantic ordering. -/
def needsInstall (fs : FS) (target : Version) : Bool :=
  match locate fs with
  | none => true
  | some bin => semLt bin.version target

/-- Modelled from the spec (section 4.5): the install-and-reprobe arm of
`ensure` — one network resolution, one install attempt, then a re-probe whose
failure is `InstallationUnverifiable`. -/
def ensureInstall (fs : FS) (net : ReleaseIndex) (target : Version) :
    Except InstallError InstalledBinary × FS × Stats :=
  match net target with
  | none => (Except.error InstallError.downloadFailed, fs, ⟨0, 1⟩)
  | some (art, downloaded) =>
      match installAttempt fs art downloaded with
      | (Except.error e, fs2) => (Except.error e, fs2, ⟨1, 1⟩)
      | (Except.ok _, fs2) =>
          match locate fs2 with
          | some bin => (Except.ok bin, fs2, ⟨1, 1⟩)
          | none => (Except.error InstallError.installationUnverifiable, fs2, ⟨1, 1⟩)

/-- Modelled from the spec (section 4.5, missing `gh_cli::commands`):
`ensure` in pinned-version mode — probe the disk, no-op when the current
version already satisfies the target, otherwise install and re-probe. -/
def ensure (fs : FS) (net : ReleaseIndex) (target : Version) :
    Except InstallError InstalledBinary × FS × Stats :=
  match locate fs with
  | some bin =>
      if semLt bin.version target then ensureInstall fs net target
      else (Except.ok bin, fs, ⟨0, 0⟩)
  | none => ensureInstall fs net target

/-- Modelled from the spec (section 4.1): what the child process would do if
run to completion — its total runtime, exit code and output streams. -/
structure ProcBehavior where
  runtime : Nat
  exitCode : Int
  stdout : Bytes
  stderr : Bytes

/-- The outcome of one execution: the typed result, plus whether a child
process is still running afterwards (an orphan). -/
structure ExecOutcome where
  result : Except ExecError CommandResult
  childRunning : Bool

/-- A completed (non-timed-out) run packaged as a CommandResult. -/
def normalRun (beh : ProcBehavior) : ExecOutcome :=
  { result := Except.ok
      { exitCode := some beh.exitCode, standardOutput := beh.stdout,
        standardError := beh.stderr, duration := beh.runtime },
    childRunning := false }

/-- Modelled from the spec (section 4.1, missing `platform::process`): the
Process Executor — if a timeout is set and the child has not exited when it
elapses, the child is forcibly terminated and the result is the distinct
`TimeoutExceeded` error; otherwise the run completes normally. -/
def execute (spec : CommandSpec) (beh : ProcBehavior) : ExecOutcome :=
  match spec.timeout with
  | some t =>
      if t < beh.runtime then
        { result := Except.error ExecError.timeoutExceeded, childRunning := false }
      else normalRun beh
  | none => normalRun beh

/-- Look a key up in an association-list environment. -/
def envLookup (env : List (String × String)) (k : String) : Option String :=
  (env.find? (fun p => p.1 == k)).map (fun p => p.2)

/-- Modelled from the spec (section 4.1): the child environment — the host
environment merged with the spec's overrides, overrides winning on key
collision. -/
def mergeEnv (host overrides : List (String × String)) :
    List (String × String) :=
  overrides ++ host.filter (fun p => (overrides.find? (fun q => q.1 == p.1)).isNone)

/-- One process run observed from the host: the environment handed to the
child, the execution outcome, and the host environment after the run. -/
structure ExecTrace where
  childEnv : List (String × String)
  outcome : ExecOutcome
  hostEnvAfter : List (String × String)

/-- Modelled from the spec (sections 4.1 and 6, missing `platform::process`):
running a CommandSpec builds the child environment by merging, executes, and
leaves the host environment untouched — no variable is globally mutated. -/
def runProcess (hostEnv : List (String × String)) (spec : CommandSpec)
    (beh : ProcBehavior) : ExecTrace :=
  { childEnv := mergeEnv hostEnv spec.environmentOverrides,
    outcome := execute spec beh,
    hostEnvAfter := hostEnv }

/-- The facade's observable outcome: the result and how many times the
Process Executor actually ran a command. -/
structure RunOutcome where
  result : Except RunError CommandResult
  execCount : Nat

/-- The CommandSpec the facade builds against the resolved installed path. -/
def mkRunSpec (path : String) (args : List String) : CommandSpec :=
  { executablePath := path, arguments := args, workingDirectory := none,
    environmentOverrides := [], timeout := none }

/-- Modelled from the spec (section 4.6, missing `gh_cli::commands`): the CLI
Facade's `run` — ensure first; on ensure failure propagate it and never
execute; otherwise build the spec against the resolved path and execute. -/
def facadeRun (fs : FS) (net : ReleaseIndex) (target : Version)
    (args : List String) (beh : ProcBehavior) : RunOutcome :=
  match ensure fs net target with
  | (Except.error e, _, _) =>
      { result := Except.error (RunError.ensureFailed e), execCount := 0 }
  | (Except.ok bin, _, _) =>
      match (execute (mkRunSpec bin.absolutePath args) beh).result with
      | Except.ok r => { result := Except.ok r, execCount := 1 }
      | Except.error x =>
          { result := Except.error (RunError.execFailed x), execCount := 1 }

/-- The single-quote character of the platform shell's quoting syntax. -/
def squote : Char := Char.ofNat 39

/-- The backslash escape character of the platform shell. -/
def bslash : Char := Char.ofNat 92

/-- The token-separating space character. -/
def spaceChar : Char := Char.ofNat 32

/-- Modelled from the spec (section 4.2): quoting one argument — every quote
character in the argument is rendered as close-quote, escaped quote,
re-open-quote. -/
def escQuote (s : List Char) : List Char :=
  match s with
  | [] => []
  | c :: rest =>
      if c = squote then squote :: bslash :: squote :: squote :: escQuote rest
      else c :: escQuote rest

/-- An argument wrapped in shell quotes. -/
def quoteArg (s : List Char) : List Char :=
  squote :: (escQuote s ++ [squote])

/-- Modelled from the spec (section 4.2, missing `platform::shell`): the
Shell Adapter's command line — each argument quoted, arguments separated by
single spaces. -/
def joinArgs (args : List (List Char)) : List Char :=
  match args with
  | [] => []
  | [a] => quoteArg a
  | a :: rest => quoteArg a ++ spaceChar :: joinArgs rest

/-- The shell tokenizer's mode: outside a quoted region, inside a
single-quoted region, or immediately after a backslash escape. -/
inductive ShMode
  | normal
  | quoted
  | escaped
deriving DecidableEq, Repr

/-- Modelled from the spec (section 4.2): the platform shell's tokenizer —
how the shell splits a command line back into argument tokens, honouring
single quotes and backslash escapes; `none` on a lexing error (unterminated
quote or trailing escape). -/
def shTokenize : List Char → Option (List Char) → ShMode → Option (List (List Char))
  | [], cur, .normal =>
      match cur with
      | none => some []
      | some t => some [t]
  | [], _, .quoted => none
  | [], _, .escaped => none
  | c :: rest, cur, .normal =>
      if c = spaceChar then
        match cur with
        | none => shTokenize rest none .normal
        | some t => (shTokenize rest none .normal).map (fun l => t :: l)
      else if c = squote then shTokenize rest (some (cur.getD [])) .quoted
      else if c = bslash then shTokenize rest (some (cur.getD [])) .escaped
      else shTokenize rest (some (cur.getD [] ++ [c])) .normal
  | c :: rest, cur, .quoted =>
      if c = squote then shTokenize rest (some (cur.getD [])) .normal
      else shTokenize rest (some (cur.getD [] ++ [c])) .quoted
  | c :: rest, cur, .escaped =>
      shTokenize rest (some (cur.getD [] ++ [c])) .normal

/-- Modelled from the spec (section 4.2): whether the platform's convention
requires shell mediation; direct execution suffices elsewhere. -/
def needsShell (pt : PlatformTarget) : Bool :=
  match pt.os with
  | .windows => true
  | _ => false

/-- Modelled from the spec (sections 4.2 and 8): the argument tokens that
reach the target program — through the shell's tokenizer on shell-mediated
platforms, or the argument vector passed through literally on direct-execution
platforms. -/
def deliveredArgs (pt : PlatformTarget) (args : List (List Char)) :
    Option (List (List Char)) :=
  if needsShell pt then shTokenize (joinArgs args) none ShMode.normal
  else some args

/-- Program counter of one `ensure_ready` caller in the concurrent model. -/
inductive PC
  | start
  | acq
  | cs
  | doins
  | done
deriving DecidableEq, Repr

/-- Modelled from the spec (section 5, missing `gh_cli::commands`): the
shared state seen by `n` concurrent `ensure_ready` callers — the
mutual-exclusion gate, the probeable version at the canonical path, the count
of install operations performed, and each caller's program counter and final
observation. -/
@[ext]
structure CState (n : Nat) where
  lock : Option (Fin n)
  disk : Option Version
  installs : Nat
  pcs : Fin n → PC
  obs : Fin n → Option Version

/-- A version satisfies the target when it is not strictly older. -/
def satV (v target : Version) : Bool := !(semLt v target)

/-- Whether the on-disk state satisfies the target version. -/
def satD (d : Option Version) (target : Version) : Bool :=
  match d with
  | some v => satV v target
  | none => false

/-- Modelled from the spec (section 5): the interleaved small steps of
concurrent `ensure_ready` callers.  A caller probes; if satisfied it is done,
else it acquires the single-in-flight installation gate, re-checks under the
gate, installs if still needed, re-probes its observation and releases. -/
inductive EnsureStep (n : Nat) (target : Version) : CState n → CState n → Prop
  | probeSat (s : CState n) (i : Fin n) (v : Version) :
      s.pcs i = PC.start → s.disk = some v → satV v target = true →
      EnsureStep n target s
        { s with pcs := Function.update s.pcs i PC.done,
                 obs := Function.update s.obs i (some v) }
  | probeUnsat (s : CState n) (i : Fin n) :
      s.pcs i = PC.start → satD s.disk target = false →
      EnsureStep n target s { s with pcs := Function.update s.pcs i PC.acq }
  | acquire (s : CState n) (i : Fin n) :
      s.pcs i = PC.acq → s.lock = none →
      EnsureStep n target s
        { s with lock := some i, pcs := Function.update s.pcs i PC.cs }
  | checkSat (s : CState n) (i : Fin n) (v : Version) :
      s.pcs i = PC.cs → s.disk = some v → satV v target = true →
      EnsureStep n target s
        { s with lock := none, pcs := Function.update s.pcs i PC.done,
                 obs := Function.update s.obs i (some v) }
  | checkUnsat (s : CState n) (i : Fin n) :
      s.pcs i = PC.cs → satD s.disk target = false →
      EnsureStep n target s { s with pcs := Function.update s.pcs i PC.doins }
  | install (s : CState n) (i : Fin n) :
      s.pcs i = PC.doins →
      EnsureStep n target s
        { s with lock := none, disk := some target, installs := s.installs + 1,
                 pcs := Function.update s.pcs i PC.done,
                 obs := Function.update s.obs i (some target) }

/-- The initial state: nothing installed, gate free, all callers at start. -/
def initState (n : Nat) : CState n :=
  { lock := none, disk := none, installs := 0,
    pcs := fun _ => PC.start, obs := fun _ => none }

/-- States reachable by interleaving the callers' steps from the clean
initial state. -/
inductive Reachable (n : Nat) (target : Version) : CState n → Prop
  | init : Reachable n target (initState n)
  | step (s t : CState n) :
      Reachable n target s → EnsureStep n target s t → Reachable n target t

/-- The inductive invariant of the concurrent `ensure_ready` model: the gate
holder is the only caller in the critical region, an installing caller saw an
unsatisfied disk, at most one install ever happens, the disk only ever holds
the target version, and every finished caller observed the installed target. -/
def EnsureInv (n : Nat) (target : Version) (s : CState n) : Prop :=
  (∀ i : Fin n, (s.pcs i = PC.cs ∨ s.pcs i = PC.doins) → s.lock = some i) ∧
  (∀ i : Fin n, s.pcs i = PC.doins → satD s.disk target = false) ∧
  s.installs ≤ 1 ∧
  (1 ≤ s.installs → s.disk = some target) ∧
  (s.disk = none ∨ s.disk = some target) ∧
  (s.disk = some target → 1 ≤ s.installs) ∧
  (∀ i : Fin n, s.pcs i = PC.done → s.obs i = some target ∧ 1 ≤ s.installs)

/-- Concrete artifact used by witnesses: version 1.0.0, checksum matching
the byte encoding `[1, 0, 0]`. -/
def artEx : ReleaseArtifact :=
  { version := ⟨1, 0, 0⟩, downloadUrl := "https://example.invalid/gh",
    checksum := checksum [1, 0, 0], platformTarget := ⟨OSKind.linux, ArchKind.x64⟩ }

/-- Concrete artifact used by witnesses: declared checksum that no byte
sequence of the served download matches. -/
def artBad : ReleaseArtifact :=
  { artEx with checksum := 0 }

/-- The empty file system: nothing installed, no temporary file. -/
def fsEmpty : FS :=
  { canonical := FileState.absent, canonicalExec := false, temp := FileState.absent }

/-- A file system holding a valid installed binary of version 1.0.0. -/
def fsInstalled : FS :=
  { canonical := FileState.complete [1, 0, 0], canonicalExec := true,
    temp := FileState.absent }

/-- A release index used by witnesses: serves `artEx` with intact bytes for
version 1.0.0 and nothing else. -/
def netEx : ReleaseIndex :=
  fun v => if v = ⟨1, 0, 0⟩ then some (artEx, [1, 0, 0]) else none

/-- A release index used by witnesses: resolves no version at all. -/
def netEmpty : ReleaseIndex :=
  fun _ => none

/-- A child-process behavior used by witnesses: sleeps five seconds then
exits 0. -/
def behSleep : ProcBehavior :=
  { runtime := 5000, exitCode := 0, stdout := [], stderr := [] }

/-- A CommandSpec used by witnesses: 100ms timeout against the canonical
binary. -/
def specTimeout : CommandSpec :=
  { executablePath := canonicalPath, arguments := [], workingDirectory := none,
    environmentOverrides := [], timeout := some 100 }

/-- A host environment used by witnesses. -/
def hostEnvEx : List (String × String) :=
  [("PATH", "/usr/bin"), ("HOME", "/root")]

/-- A CommandSpec used by witnesses: overrides the PATH variable. -/
def specEnvEx : CommandSpec :=
  { executablePath := canonicalPath, arguments := [], workingDirectory := none,
    environmentOverrides := [("PATH", "/opt/bin")], timeout := none }

/-- The terminal state of the concrete single-caller `ensure_ready` run used
by the concurrency witness: installed target 1.0.0, one install performed,
the caller done and observing the installed version. -/
def c4Final : CState 1 :=
  { lock := none, disk := some ⟨1, 0, 0⟩, installs := 1,
    pcs := fun _ => PC.done, obs := fun _ => some ⟨1, 0, 0⟩ }

theorem applyOp_tempOnly (fs : FS) (op : FsOp) (h : tempOnly op = true) :
    (applyOp fs op).canonical = fs.canonical ∧
      (applyOp fs op).canonicalExec = fs.canonicalExec := by
  cases op with
  | writeTempTrunc b => exact ⟨rfl, rfl⟩
  | writeTempFull b => exact ⟨rfl, rfl⟩
  | delTemp => exact ⟨rfl, rfl⟩
  | renameTempToCanonical => simp [tempOnly] at h

theorem applyOps_tempOnly (ops : List FsOp) (fs : FS)
    (h : ∀ op ∈ ops, tempOnly op = true) :
    (applyOps ops fs).canonical = fs.canonical ∧
      (applyOps ops fs).canonicalExec = fs.canonicalExec := by
  induction ops generalizing fs with
  | nil => exact ⟨rfl, rfl⟩
  | cons op rest ih =>
      have hop := applyOp_tempOnly fs op (h op (List.mem_cons_self op rest))
      have hrest := ih (applyOp fs op) (fun o ho => h o (List.mem_cons_of_mem op ho))
      exact ⟨hrest.1.trans hop.1, hrest.2.trans hop.2⟩

theorem downloadOps_tempOnly (b : Bytes) :
    ∀ op ∈ downloadOps b, tempOnly op = true := by
  intro op hop
  simp only [downloadOps, List.mem_map] at hop
  obtain ⟨i, _, rfl⟩ := hop
  rfl

/-- After applying every temp-write stage of the install, the temporary path
holds the complete downloaded artifact. -/
theorem applyOps_stage_temp (b : Bytes) (fs : FS) :
    (applyOps (downloadOps b ++ [FsOp.writeTempFull b]) fs).temp =
      FileState.complete b := by
  have h : applyOps (downloadOps b ++ [FsOp.writeTempFull b]) fs =
      applyOp (applyOps (downloadOps b) fs) (FsOp.writeTempFull b) := by
    simp [applyOps, List.foldl_append]
  rw [h]
  rfl

theorem tempOnly_of_ne_rename (op : FsOp) (h : op ≠ FsOp.renameTempToCanonical) :
    tempOnly op = true := by
  cases op with
  | writeTempTrunc b => rfl
  | writeTempFull b => rfl
  | delTemp => rfl
  | renameTempToCanonical => exact absurd rfl h

theorem stageOps_tempOnly (b : Bytes) :
    ∀ op ∈ downloadOps b ++ [FsOp.writeTempFull b], tempOnly op = true := by
  intro op hop
  rcases List.mem_append.mp hop with h | h
  · exact downloadOps_tempOnly b op h
  · rcases List.mem_singleton.mp h with rfl
    rfl

/-- C1: every interruption prefix of an install attempt leaves the canonical
path holding either its previous state (absent or the previous valid binary)
or the complete new binary, never a truncated file — and no primitive
operation other than the final atomic rename touches the canonical path. -/
theorem installer_atomic_replace (art : ReleaseArtifact) (downloaded : Bytes)
    (fs : FS) (k : Nat)
    (h : fs.canonical = FileState.absent ∨ ∃ c, fs.canonical = FileState.complete c) :
    ((applyOps ((installOps art downloaded).take k) fs).canonical = fs.canonical ∨
      (applyOps ((installOps art downloaded).take k) fs).canonical =
        FileState.complete downloaded) ∧
    (∀ t, (applyOps ((installOps art downloaded).take k) fs).canonical ≠
      FileState.truncated t) ∧
    (∀ op ∈ installOps art downloaded, op ≠ FsOp.renameTempToCanonical →
      ∀ g : FS, (applyOp g op).canonical = g.canonical) := by
  have hthird : ∀ (l : List FsOp), ∀ op ∈ l, op ≠ FsOp.renameTempToCanonical →
      ∀ g : FS, (applyOp g op).canonical = g.canonical :=
    fun _ op _ hne g => (applyOp_tempOnly g op (tempOnly_of_ne_rename op hne)).1
  have hnotTrunc : ∀ t, fs.canonical ≠ FileState.truncated t := by
    intro t heq
    rcases h with h0 | ⟨c, h0⟩ <;> rw [h0] at heq <;> exact FileState.noConfusion heq
  set A : List FsOp := downloadOps downloaded ++ [FsOp.writeTempFull downloaded] with hA
  by_cases hc : checksum downloaded = art.checksum
  · have hops : installOps art downloaded = A ++ [FsOp.renameTempToCanonical] := by
      simp [installOps, hc, hA, List.append_assoc]
    rw [hops]
    rw [List.take_append_eq_append_take]
    cases hk : k - A.length with
    | zero =>
        have hsub : ∀ op ∈ A.take k ++ ([FsOp.renameTempToCanonical].take 0),
            tempOnly op = true := by
          intro op hop
          simp only [List.take_zero, List.append_nil] at hop
          exact stageOps_tempOnly downloaded op (List.take_subset k A hop)
        have hcan := (applyOps_tempOnly _ fs hsub).1
        refine ⟨Or.inl hcan, fun t heq => ?_, hthird _⟩
        rw [hcan] at heq
        exact hnotTrunc t heq
    | succ m =>
        have hlen : A.length ≤ k := by omega
        have htake1 : A.take k = A := List.take_of_length_le hlen
        have htake2 : ([FsOp.renameTempToCanonical].take (m + 1)) =
            [FsOp.renameTempToCanonical] := by simp
        rw [htake1, htake2]
        have hfold : applyOps (A ++ [FsOp.renameTempToCanonical]) fs =
            applyOp (applyOps A fs) FsOp.renameTempToCanonical := by
          simp [applyOps, List.foldl_append]
        rw [hfold]
        have htemp : (applyOps A fs).temp = FileState.complete downloaded :=
          applyOps_stage_temp downloaded fs
        refine ⟨Or.inr ?_, fun t heq => ?_, hthird _⟩
        · show (applyOps A fs).temp = FileState.complete downloaded
          exact htemp
        · have : (applyOps A fs).temp = FileState.truncated t := heq
          rw [htemp] at this
          exact FileState.noConfusion this
  · have hops : installOps art downloaded = A ++ [FsOp.delTemp] := by
      simp [installOps, hc, hA, List.append_assoc]
    rw [hops]
    have hsub : ∀ op ∈ (A ++ [FsOp.delTemp]).take k, tempOnly op = true := by
      intro op hop
      have hmem := List.take_subset k _ hop
      rcases List.mem_append.mp hmem with h1 | h1
      · exact stageOps_tempOnly downloaded op h1
      · rcases List.mem_singleton.mp h1 with rfl
        rfl
    have hcan := (applyOps_tempOnly _ fs hsub).1
    refine ⟨Or.inl hcan, fun t heq => ?_, hthird _⟩
    rw [hcan] at heq
    exact hnotTrunc t heq

/-- C1 witness: interrupting the install of artifact `artEx` after two
operations on an empty file system leaves the canonical path unchanged and
never truncated. -/
theorem installer_atomic_replace_witness :
    ((applyOps ((installOps artEx [1, 0, 0]).take 2) fsEmpty).canonical =
        fsEmpty.canonical ∨
      (applyOps ((installOps artEx [1, 0, 0]).take 2) fsEmpty).canonical =
        FileState.complete [1, 0, 0]) ∧
    (∀ t, (applyOps ((installOps artEx [1, 0, 0]).take 2) fsEmpty).canonical ≠
      FileState.truncated t) ∧
    (∀ op ∈ installOps artEx [1, 0, 0], op ≠ FsOp.renameTempToCanonical →
      ∀ g : FS, (applyOp g op).canonical = g.canonical) :=
  installer_atomic_replace artEx [1, 0, 0] fsEmpty 2 (Or.inl rfl)

/-- C2: a checksum mismatch makes the install attempt fail with
`IntegrityCheckFailed`, leaves the canonical path untouched, discards the
downloaded temporary file, and builds no CommandSpec against the download;
conversely any CommandSpec built against a download implies its checksum was
verified. -/
theorem integrity_mismatch_rejected (fs : FS) (art : ReleaseArtifact)
    (downloaded : Bytes) :
    (checksum downloaded ≠ art.checksum →
      (installAttempt fs art downloaded).1 =
          Except.error InstallError.integrityCheckFailed ∧
        (installAttempt fs art downloaded).2.canonical = fs.canonical ∧
        (installAttempt fs art downloaded).2.temp = FileState.absent ∧
        specsBuiltAgainstDownload art downloaded = []) ∧
    (specsBuiltAgainstDownload art downloaded ≠ [] →
      checksum downloaded = art.checksum) := by
  constructor
  · intro h
    have hops : installOps art downloaded =
        (downloadOps downloaded ++ [FsOp.writeTempFull downloaded]) ++
          [FsOp.delTemp] := by
      simp [installOps, h, List.append_assoc]
    have hsub : ∀ op ∈ installOps art downloaded, tempOnly op = true := by
      rw [hops]
      intro op hop
      rcases List.mem_append.mp hop with h1 | h1
      · exact stageOps_tempOnly downloaded op h1
      · rcases List.mem_singleton.mp h1 with rfl
        rfl
    have hcan := (applyOps_tempOnly _ fs hsub).1
    have htemp : (applyOps (installOps art downloaded) fs).temp =
        FileState.absent := by
      rw [hops]
      have hfold : applyOps
          ((downloadOps downloaded ++ [FsOp.writeTempFull downloaded]) ++
            [FsOp.delTemp]) fs =
          applyOp (applyOps
            (downloadOps downloaded ++ [FsOp.writeTempFull downloaded]) fs)
            FsOp.delTemp := by
        simp [applyOps, List.foldl_append]
      rw [hfold]
      rfl
    refine ⟨?_, ?_, ?_, ?_⟩
    · simp [installAttempt, h]
    · simp only [installAttempt, if_neg h]
      exact hcan
    · simp only [installAttempt, if_neg h]
      exact htemp
    · simp [specsBuiltAgainstDownload, h]
  · intro hne
    by_cases hc : checksum downloaded = art.checksum
    · exact hc
    · exact absurd (by simp [specsBuiltAgainstDownload, hc]) hne

/-- C2 witness: the artifact `artBad` (declared checksum 0) is rejected on
the concrete download `[1, 0, 0]` and no CommandSpec is built against it. -/
theorem integrity_mismatch_rejected_witness :
    (installAttempt fsEmpty artBad [1, 0, 0]).1 =
        Except.error InstallError.integrityCheckFailed ∧
      specsBuiltAgainstDownload artBad [1, 0, 0] = [] := by
  have h := (integrity_mismatch_rejected fsEmpty artBad [1, 0, 0]).1 (by decide)
  exact ⟨h.1, h.2.2.2⟩

/-- C9: every failure of the locator's check chain — missing file, not
executable, probe failing to run, probe output failing to parse — is reported
as "not installed" (`none`), never surfaced as an error; the locator answers
`some` exactly when the whole chain succeeds. -/
theorem locator_absence_not_error (fs : FS) :
    (∀ e, checkChain fs = Except.error e → locate fs = none) ∧
    (locate fs = none ∨
      ∃ bin, checkChain fs = Except.ok bin ∧ locate fs = some bin) := by
  constructor
  · intro e he
    simp [locate, he, Except.toOption]
  · cases hc : checkChain fs with
    | error e => exact Or.inl (by simp [locate, hc, Except.toOption])
    | ok bin => exact Or.inr ⟨bin, rfl, by simp [locate, hc, Except.toOption]⟩

/-- C9 witness: on the empty file system the chain fails with `missing` and
the locator reports "not installed". -/
theorem locator_absence_not_error_witness : locate fsEmpty = none :=
  (locator_absence_not_error fsEmpty).1 LocateFailure.missing rfl

/-- C3: when a timeout is set and the child has not exited when it elapses,
the executor returns the distinct `TimeoutExceeded` error — never a normal
exit result — and no child process is left running. -/
theorem executor_timeout (spec : CommandSpec) (beh : ProcBehavior) (t : Nat)
    (hspec : spec.timeout = some t) (hrun : t < beh.runtime) :
    (execute spec beh).result = Except.error ExecError.timeoutExceeded ∧
    (∀ r : CommandResult, (execute spec beh).result ≠ Except.ok r) ∧
    (execute spec beh).childRunning = false := by
  have hexec : execute spec beh =
      { result := Except.error ExecError.timeoutExceeded, childRunning := false } := by
    simp [execute, hspec, hrun]
  refine ⟨by rw [hexec], fun r hr => ?_, by rw [hexec]⟩
  rw [hexec] at hr
  exact Except.noConfusion hr

/-- C3 witness: a 100ms timeout against a process sleeping 5s returns
`TimeoutExceeded` and leaves no child process running. -/
theorem executor_timeout_witness :
    (execute specTimeout behSleep).result = Except.error ExecError.timeoutExceeded ∧
    (execute specTimeout behSleep).childRunning = false := by
  have h := executor_timeout specTimeout behSleep 100 rfl (by decide)
  exact ⟨h.1, h.2.2⟩

theorem find?_append_orElse {α : Type} (l1 l2 : List α) (p : α → Bool) :
    (l1 ++ l2).find? p = ((l1.find? p).orElse (fun _ => l2.find? p)) := by
  induction l1 with
  | nil => simp [Option.orElse]
  | cons a t ih =>
      by_cases h : p a
      · simp [List.find?_cons_of_pos _ h, Option.orElse]
      · rw [List.cons_append, List.find?_cons_of_neg _ (by simpa using h),
          List.find?_cons_of_neg _ (by simpa using h), ih]

theorem find?_filter_unoverridden (ov : List (String × String)) (k : String)
    (hov : ov.find? (fun q => q.1 == k) = none) :
    ∀ host : List (String × String),
      (host.filter (fun p => (ov.find? (fun q => q.1 == p.1)).isNone)).find?
          (fun p => p.1 == k) = host.find? (fun p => p.1 == k) := by
  intro host
  induction host with
  | nil => rfl
  | cons p t ih =>
      by_cases hpk : (p.1 == k) = true
      · have hk : p.1 = k := eq_of_beq hpk
        have hnone : ov.find? (fun q => q.1 == p.1) = none := by rw [hk]; exact hov
        rw [List.filter_cons_of_pos (by simp [hnone])]
        simp [List.find?, hpk]
      · by_cases hkeep : (ov.find? (fun q => q.1 == p.1)).isNone = true
        · rw [List.filter_cons_of_pos (by simpa using hkeep)]
          simp [List.find?, hpk, ih]
        · rw [List.filter_cons_of_neg (by simpa using hkeep)]
          simp [List.find?, hpk, ih]

/-- C10: the child process runs with the host environment merged with the
spec's overrides, the override value winning on every key collision, and the
host environment is not mutated by running the command. -/
theorem executor_env_merge (hostEnv : List (String × String))
    (spec : CommandSpec) (beh : ProcBehavior) :
    (∀ k v, envLookup spec.environmentOverrides k = some v →
        envLookup (runProcess hostEnv spec beh).childEnv k = some v) ∧
    (∀ k, envLookup spec.environmentOverrides k = none →
        envLookup (runProcess hostEnv spec beh).childEnv k = envLookup hostEnv k) ∧
    (runProcess hostEnv spec beh).hostEnvAfter = hostEnv := by
  refine ⟨?_, ?_, rfl⟩
  · intro k v hkv
    have hfind : spec.environmentOverrides.find? (fun q => q.1 == k) ≠ none := by
      intro hno
      rw [envLookup, hno] at hkv
      exact Option.noConfusion hkv
    obtain ⟨pair, hpair⟩ := Option.ne_none_iff_exists'.mp hfind
    show envLookup (mergeEnv hostEnv spec.environmentOverrides) k = some v
    rw [envLookup, mergeEnv, find?_append_orElse, hpair]
    rw [envLookup, hpair] at hkv
    exact hkv
  · intro k hk
    have hfind : spec.environmentOverrides.find? (fun q => q.1 == k) = none := by
      rw [envLookup] at hk
      exact Option.map_eq_none'.mp hk
    show envLookup (mergeEnv hostEnv spec.environmentOverrides) k = envLookup hostEnv k
    rw [envLookup, mergeEnv, find?_append_orElse, hfind]
    rw [find?_filter_unoverridden _ k hfind hostEnv]
    rfl

/-- C10 witness: with host `PATH=/usr/bin, HOME=/root` and override
`PATH=/opt/bin`, the child sees the override for PATH and the host value for
HOME, and the host environment is unchanged. -/
theorem executor_env_merge_witness :
    envLookup (runProcess hostEnvEx specEnvEx behSleep).childEnv "PATH" =
        some "/opt/bin" ∧
    envLookup (runProcess hostEnvEx specEnvEx behSleep).childEnv "HOME" =
        envLookup hostEnvEx "HOME" ∧
    (runProcess hostEnvEx specEnvEx behSleep).hostEnvAfter = hostEnvEx := by
  have h := executor_env_merge hostEnvEx specEnvEx behSleep
  exact ⟨h.1 "PATH" "/opt/bin" rfl, h.2.1 "HOME" rfl, h.2.2⟩

/-- C5: the facade's `run` invokes `ensure` first; when `ensure` fails, that
failure is propagated and the Process Executor never runs the command, and
any execution at all implies `ensure` succeeded. -/
theorem facade_ensure_before_run (fs : FS) (net : ReleaseIndex)
    (target : Version) (args : List String) (beh : ProcBehavior) :
    (∀ e, (ensure fs net target).1 = Except.error e →
        facadeRun fs net target args beh =
          { result := Except.error (RunError.ensureFailed e), execCount := 0 }) ∧
    ((facadeRun fs net target args beh).execCount ≠ 0 →
        ∃ bin, (ensure fs net target).1 = Except.ok bin) := by
  rcases hens : ensure fs net target with ⟨res, fs2, st⟩
  cases res with
  | error e0 =>
      constructor
      · intro e he
        have he2 : e0 = e := by simpa using he
        subst he2
        simp [facadeRun, hens]
      · intro hcount
        exfalso
        exact hcount (by simp [facadeRun, hens])
  | ok bin =>
      constructor
      · intro e he
        simp at he
      · intro _
        exact ⟨bin, rfl⟩

/-- C5 witness: with a release index that resolves nothing and a clean file
system, `ensure` fails with `DownloadFailed`; the facade propagates exactly
that failure and executes nothing. -/
theorem facade_ensure_before_run_witness :
    facadeRun fsEmpty netEmpty ⟨1, 0, 0⟩ [] behSleep =
      { result := Except.error (RunError.ensureFailed InstallError.downloadFailed),
        execCount := 0 } :=
  (facade_ensure_before_run fsEmpty netEmpty ⟨1, 0, 0⟩ [] behSleep).1
    InstallError.downloadFailed rfl

/-- C6: `ensure` is a no-op when the current version already satisfies the
target under semantic ordering; when the current version is absent or
strictly older, it performs exactly one install operation and re-probes,
failing with `InstallationUnverifiable` exactly when the post-install probe
fails. -/
theorem ensure_semantics (fs : FS) (net : ReleaseIndex) (target : Version) :
    (∀ bin, locate fs = some bin → semLt bin.version target = false →
        ensure fs net target = (Except.ok bin, fs, ⟨0, 0⟩)) ∧
    (needsInstall fs target = true →
      ∀ art downloaded, net target = some (art, downloaded) →
        checksum downloaded = art.checksum →
        (ensure fs net target).2.2 = ⟨1, 1⟩ ∧
        (ensure fs net target).2.1 = applyOps (installOps art downloaded) fs ∧
        (locate (applyOps (installOps art downloaded) fs) = none →
          (ensure fs net target).1 =
            Except.error InstallError.installationUnverifiable) ∧
        (∀ bin, locate (applyOps (installOps art downloaded) fs) = some bin →
          (ensure fs net target).1 = Except.ok bin)) := by
  constructor
  · intro bin hloc hlt
    simp [ensure, hloc, hlt]
  · intro hneed art downloaded hnet hck
    have hinst : ensure fs net target = ensureInstall fs net target := by
      rw [needsInstall] at hneed
      cases hloc : locate fs with
      | none => simp [ensure, hloc]
      | some bin =>
          rw [hloc] at hneed
          have hlt : semLt bin.version target = true := hneed
          simp [ensure, hloc, hlt]
    have hatt : installAttempt fs art downloaded =
        (Except.ok (), applyOps (installOps art downloaded) fs) := by
      simp [installAttempt, hck]
    have hei : ensureInstall fs net target =
        match locate (applyOps (installOps art downloaded) fs) with
        | some bin =>
            (Except.ok bin, applyOps (installOps art downloaded) fs, ⟨1, 1⟩)
        | none =>
            (Except.error InstallError.installationUnverifiable,
              applyOps (installOps art downloaded) fs, ⟨1, 1⟩) := by
      simp only [ensureInstall, hnet, hatt]
    rw [hinst, hei]
    cases hre : locate (applyOps (installOps art downloaded) fs) with
    | none =>
        refine ⟨rfl, rfl, fun _ => rfl, fun bin hbin => ?_⟩
        exact Option.noConfusion hbin
    | some bin =>
        refine ⟨rfl, rfl, fun hno => Option.noConfusion hno, fun b hb => ?_⟩
        injection hb with hb2
        rw [hb2]

/-- C6 witness: with a valid 1.0.0 binary installed, `ensure 1.0.0` is a
no-op; on a clean file system it performs exactly one install and one network
call. -/
theorem ensure_semantics_witness :
    ensure fsInstalled netEx ⟨1, 0, 0⟩ =
      (Except.ok ⟨canonicalPath, ⟨1, 0, 0⟩, 0⟩, fsInstalled, ⟨0, 0⟩) ∧
    (ensure fsEmpty netEx ⟨1, 0, 0⟩).2.2 = ⟨1, 1⟩ := by
  constructor
  · exact (ensure_semantics fsInstalled netEx ⟨1, 0, 0⟩).1
      ⟨canonicalPath, ⟨1, 0, 0⟩, 0⟩ rfl rfl
  · exact ((ensure_semantics fsEmpty netEx ⟨1, 0, 0⟩).2 rfl artEx [1, 0, 0]
      (by simp [netEx]) rfl).1

/-- C7: in pinned-version mode, when the target is already satisfied,
`ensure` is a no-op on the file system and a second consecutive call with the
same target performs zero network calls and zero install operations. -/
theorem ensure_idempotent (fs : FS) (net : ReleaseIndex) (target : Version)
    (h : needsInstall fs target = false) :
    (ensure fs net target).2.1 = fs ∧
    (ensure (ensure fs net target).2.1 net target).2.2 = ⟨0, 0⟩ := by
  rw [needsInstall] at h
  cases hloc : locate fs with
  | none => rw [hloc] at h; exact Bool.noConfusion h
  | some bin =>
      rw [hloc] at h
      have h2 : semLt bin.version target = false := h
      have hens : ensure fs net target = (Except.ok bin, fs, ⟨0, 0⟩) := by
        simp [ensure, hloc, h2]
      refine ⟨by rw [hens], ?_⟩
      rw [hens]
      simp [ensure, hloc, h2]

/-- C7 witness: with a valid 1.0.0 binary installed, the second consecutive
`ensure 1.0.0` performs zero network and zero install operations. -/
theorem ensure_idempotent_witness :
    (ensure (ensure fsInstalled netEx ⟨1, 0, 0⟩).2.1 netEx ⟨1, 0, 0⟩).2.2 =
      ⟨0, 0⟩ :=
  (ensure_idempotent fsInstalled netEx ⟨1, 0, 0⟩ rfl).2


theorem squote_ne_spaceChar : squote ≠ spaceChar := by decide

theorem bslash_ne_spaceChar : bslash ≠ spaceChar := by decide

theorem bslash_ne_squote : bslash ≠ squote := by decide

theorem shTok_quoted_close (rest : List Char) (cur : Option (List Char)) :
    shTokenize (squote :: rest) cur ShMode.quoted =
      shTokenize rest (some (cur.getD [])) ShMode.normal := by
  simp [shTokenize]

theorem shTok_quoted_other (c : Char) (hc : c ≠ squote) (rest : List Char)
    (cur : Option (List Char)) :
    shTokenize (c :: rest) cur ShMode.quoted =
      shTokenize rest (some (cur.getD [] ++ [c])) ShMode.quoted := by
  simp [shTokenize, hc]

theorem shTok_normal_squote (rest : List Char) (cur : Option (List Char)) :
    shTokenize (squote :: rest) cur ShMode.normal =
      shTokenize rest (some (cur.getD [])) ShMode.quoted := by
  simp [shTokenize, squote_ne_spaceChar]

theorem shTok_normal_bslash (rest : List Char) (cur : Option (List Char)) :
    shTokenize (bslash :: rest) cur ShMode.normal =
      shTokenize rest (some (cur.getD [])) ShMode.escaped := by
  simp [shTokenize, bslash_ne_spaceChar, bslash_ne_squote]

theorem shTok_escaped (c : Char) (rest : List Char) (cur : Option (List Char)) :
    shTokenize (c :: rest) cur ShMode.escaped =
      shTokenize rest (some (cur.getD [] ++ [c])) ShMode.normal := by
  simp [shTokenize]

theorem shTok_space_some (rest : List Char) (t : List Char) :
    shTokenize (spaceChar :: rest) (some t) ShMode.normal =
      (shTokenize rest none ShMode.normal).map (fun l => t :: l) := by
  simp [shTokenize]

theorem shTokenize_escQuote (s : List Char) :
    ∀ (rest cur : List Char),
      shTokenize (escQuote s ++ (squote :: rest)) (some cur) ShMode.quoted =
        shTokenize rest (some (cur ++ s)) ShMode.normal := by
  induction s with
  | nil =>
      intro rest cur
      rw [escQuote, List.nil_append, shTok_quoted_close]
      simp
  | cons c t ih =>
      intro rest cur
      by_cases hc : c = squote
      · subst hc
        rw [escQuote, if_pos rfl]
        simp only [List.cons_append]
        rw [shTok_quoted_close, shTok_normal_bslash, shTok_escaped,
          shTok_normal_squote]
        simp only [Option.getD_some]
        rw [ih rest (cur ++ [squote])]
        simp
      · rw [escQuote, if_neg hc]
        simp only [List.cons_append]
        rw [shTok_quoted_other c hc]
        simp only [Option.getD_some]
        rw [ih rest (cur ++ [c])]
        simp

theorem shTokenize_quoteArg (a rest : List Char) :
    shTokenize (quoteArg a ++ rest) none ShMode.normal =
      shTokenize rest (some a) ShMode.normal := by
  have hsplit : quoteArg a ++ rest =
      squote :: (escQuote a ++ (squote :: rest)) := by
    simp [quoteArg]
  rw [hsplit, shTok_normal_squote]
  simp only [Option.getD_none]
  rw [shTokenize_escQuote a rest []]
  simp

theorem shTokenize_joinArgs (args : List (List Char)) :
    shTokenize (joinArgs args) none ShMode.normal = some args := by
  induction args with
  | nil => simp [joinArgs, shTokenize]
  | cons a rest ih =>
      cases rest with
      | nil =>
          have h1 : joinArgs [a] = quoteArg a ++ [] := by simp [joinArgs]
          rw [h1, shTokenize_quoteArg a []]
          simp [shTokenize]
      | cons b t =>
          have h1 : joinArgs (a :: b :: t) =
              quoteArg a ++ (spaceChar :: joinArgs (b :: t)) := by
            simp [joinArgs]
          rw [h1, shTokenize_quoteArg, shTok_space_some, ih]
          rfl

/-- C8: for every supported PlatformTarget, the arguments delivered to the
target program by executing the Shell Adapter's CommandSpec are exactly the
original argument list — on shell-mediated platforms the quoted command line
re-tokenizes to the original boundaries, and on direct-execution platforms
the argument vector passes through literally. -/
theorem shell_adapter_roundtrip (pt : PlatformTarget) (args : List (List Char)) :
    deliveredArgs pt args = some args := by
  rw [deliveredArgs]
  by_cases h : needsShell pt = true
  · rw [if_pos h]
    exact shTokenize_joinArgs args
  · rw [if_neg h]

theorem satV_self (v : Version) : satV v v = true := by
  simp [satV, semLt]

theorem ensureInv_init (n : Nat) (target : Version) :
    EnsureInv n target (initState n) := by
  refine ⟨?_, ?_, ?_, ?_, ?_, ?_, ?_⟩ <;> simp [initState]

theorem ensureInv_step (n : Nat) (target : Version) (s t : CState n)
    (hinv : EnsureInv n target s) (hstep : EnsureStep n target s t) :
    EnsureInv n target t := by
  obtain ⟨ha, hb, hc, hd, he, hf, hg⟩ := hinv
  cases hstep with
  | probeSat i v hpc hdisk hsat =>
      have hvt : v = target := by
        rcases he with h0 | h0
        · rw [h0] at hdisk; exact Option.noConfusion hdisk
        · exact (Option.some.inj (h0.symm.trans hdisk)).symm
      refine ⟨?_, ?_, hc, hd, he, hf, ?_⟩ <;> dsimp only
      · intro j hj
        by_cases hji : j = i
        · subst hji
          rw [Function.update_same] at hj
          rcases hj with h1 | h1 <;> exact PC.noConfusion h1
        · rw [Function.update_noteq hji] at hj
          exact ha j hj
      · intro j hj
        by_cases hji : j = i
        · subst hji
          rw [Function.update_same] at hj
          exact PC.noConfusion hj
        · rw [Function.update_noteq hji] at hj
          exact hb j hj
      · intro j hj
        by_cases hji : j = i
        · subst hji
          rw [Function.update_same]
          refine ⟨by rw [hvt], hf (by rw [hdisk, hvt])⟩
        · rw [Function.update_noteq hji] at hj
          rw [Function.update_noteq hji]
          exact hg j hj
  | probeUnsat i hpc hunsat =>
      refine ⟨?_, ?_, hc, hd, he, hf, ?_⟩ <;> dsimp only
      · intro j hj
        by_cases hji : j = i
        · subst hji
          rw [Function.update_same] at hj
          rcases hj with h1 | h1 <;> exact PC.noConfusion h1
        · rw [Function.update_noteq hji] at hj
          exact ha j hj
      · intro j hj
        by_cases hji : j = i
        · subst hji
          rw [Function.update_same] at hj
          exact PC.noConfusion hj
        · rw [Function.update_noteq hji] at hj
          exact hb j hj
      · intro j hj
        by_cases hji : j = i
        · subst hji
          rw [Function.update_same] at hj
          exact PC.noConfusion hj
        · rw [Function.update_noteq hji] at hj
          exact hg j hj
  | acquire i hpc hlock =>
      refine ⟨?_, ?_, hc, hd, he, hf, ?_⟩ <;> dsimp only
      · intro j hj
        by_cases hji : j = i
        · subst hji
          rfl
        · rw [Function.update_noteq hji] at hj
          have h1 := ha j hj
          rw [hlock] at h1
          exact Option.noConfusion h1
      · intro j hj
        by_cases hji : j = i
        · subst hji
          rw [Function.update_same] at hj
          exact PC.noConfusion hj
        · rw [Function.update_noteq hji] at hj
          have h1 := ha j (Or.inr hj)
          rw [hlock] at h1
          exact Option.noConfusion h1
      · intro j hj
        by_cases hji : j = i
        · subst hji
          rw [Function.update_same] at hj
          exact PC.noConfusion hj
        · rw [Function.update_noteq hji] at hj
          exact hg j hj
  | checkSat i v hpc hdisk hsat =>
      have hvt : v = target := by
        rcases he with h0 | h0
        · rw [h0] at hdisk; exact Option.noConfusion hdisk
        · exact (Option.some.inj (h0.symm.trans hdisk)).symm
      refine ⟨?_, ?_, hc, hd, he, hf, ?_⟩ <;> dsimp only
      · intro j hj
        by_cases hji : j = i
        · subst hji
          rw [Function.update_same] at hj
          rcases hj with h1 | h1 <;> exact PC.noConfusion h1
        · rw [Function.update_noteq hji] at hj
          have h1 := ha j hj
          have h2 := ha i (Or.inl hpc)
          exact absurd (Option.some.inj (h2.symm.trans h1)).symm hji
      · intro j hj
        by_cases hji : j = i
        · subst hji
          rw [Function.update_same] at hj
          exact PC.noConfusion hj
        · rw [Function.update_noteq hji] at hj
          have h1 := ha j (Or.inr hj)
          have h2 := ha i (Or.inl hpc)
          exact absurd (Option.some.inj (h2.symm.trans h1)).symm hji
      · intro j hj
        by_cases hji : j = i
        · subst hji
          rw [Function.update_same]
          refine ⟨by rw [hvt], hf (by rw [hdisk, hvt])⟩
        · rw [Function.update_noteq hji] at hj
          rw [Function.update_noteq hji]
          exact hg j hj
  | checkUnsat i hpc hunsat =>
      refine ⟨?_, ?_, hc, hd, he, hf, ?_⟩ <;> dsimp only
      · intro j hj
        by_cases hji : j = i
        · subst hji
          exact ha _ (Or.inl hpc)
        · rw [Function.update_noteq hji] at hj
          exact ha j hj
      · intro j hj
        by_cases hji : j = i
        · subst hji
          exact hunsat
        · rw [Function.update_noteq hji] at hj
          exact hb j hj
      · intro j hj
        by_cases hji : j = i
        · subst hji
          rw [Function.update_same] at hj
          exact PC.noConfusion hj
        · rw [Function.update_noteq hji] at hj
          exact hg j hj
  | install i hpc =>
      have hdiskNone : s.disk = none := by
        have hbs := hb i hpc
        rcases he with h0 | h0
        · exact h0
        · rw [h0] at hbs
          rw [show satD (some target) target = satV target target from rfl,
            satV_self] at hbs
          exact Bool.noConfusion hbs
      have hinstalls0 : s.installs = 0 := by
        by_contra hne
        have h1 : 1 ≤ s.installs := Nat.one_le_iff_ne_zero.mpr hne
        have h2 := hd h1
        rw [hdiskNone] at h2
        exact Option.noConfusion h2
      refine ⟨?_, ?_, ?_, ?_, ?_, ?_, ?_⟩ <;> dsimp only
      · intro j hj
        by_cases hji : j = i
        · subst hji
          rw [Function.update_same] at hj
          rcases hj with h1 | h1 <;> exact PC.noConfusion h1
        · rw [Function.update_noteq hji] at hj
          have h1 := ha j hj
          have h2 := ha i (Or.inr hpc)
          exact absurd (Option.some.inj (h2.symm.trans h1)).symm hji
      · intro j hj
        by_cases hji : j = i
        · subst hji
          rw [Function.update_same] at hj
          exact PC.noConfusion hj
        · rw [Function.update_noteq hji] at hj
          have h1 := ha j (Or.inr hj)
          have h2 := ha i (Or.inr hpc)
          exact absurd (Option.some.inj (h2.symm.trans h1)).symm hji
      · omega
      · intro _
        rfl
      · exact Or.inr rfl
      · intro _
        omega
      · intro j hj
        by_cases hji : j = i
        · subst hji
          rw [Function.update_same]
          exact ⟨rfl, by omega⟩
        · rw [Function.update_noteq hji] at hj
          rw [Function.update_noteq hji]
          exact ⟨(hg j hj).1, by omega⟩

theorem reachable_inv (n : Nat) (target : Version) (s : CState n)
    (h : Reachable n target s) : EnsureInv n target s := by
  induction h with
  | init => exact ensureInv_init n target
  | step s t _ hstep ih => exact ensureInv_step n target s t ih hstep

/-- C4: in every reachable state of the concurrent model, at most one caller
is performing an installation (the mutual-exclusion gate); and in every
terminal state where all callers have finished, exactly one install operation
has occurred and every caller observes the successfully-probed installed
target version. -/
theorem ensure_ready_single_install (n : Nat) (target : Version) (s : CState n)
    (hn : 0 < n) (hreach : Reachable n target s) :
    (∀ i j : Fin n, s.pcs i = PC.doins → s.pcs j = PC.doins → i = j) ∧
    ((∀ i : Fin n, s.pcs i = PC.done) →
      s.installs = 1 ∧ ∀ i : Fin n, s.obs i = some target) := by
  obtain ⟨ha, _, hc, _, _, _, hg⟩ := reachable_inv n target s hreach
  constructor
  · intro i j hi hj
    have h1 := ha i (Or.inr hi)
    have h2 := ha j (Or.inr hj)
    exact Option.some.inj (h1.symm.trans h2)
  · intro hdone
    have hg0 := hg ⟨0, hn⟩ (hdone ⟨0, hn⟩)
    exact ⟨Nat.le_antisymm hc hg0.2, fun i => (hg i (hdone i)).1⟩

theorem reach_c4Final : Reachable 1 ⟨1, 0, 0⟩ c4Final := by
  have h1 := Reachable.step _ _ (@Reachable.init 1 ⟨1, 0, 0⟩)
    (EnsureStep.probeUnsat (initState 1) 0 (by decide) (by decide))
  have h2 := Reachable.step _ _ h1
    (EnsureStep.acquire _ 0 (by decide) (by decide))
  have h3 := Reachable.step _ _ h2
    (EnsureStep.checkUnsat _ 0 (by decide) (by decide))
  have h4 := Reachable.step _ _ h3
    (EnsureStep.install _ 0 (by decide))
  convert h4 using 2 <;> try rfl
  all_goals
    funext j
    rw [Fin.eq_zero j]
    decide

/-- C4 witness: a concrete single-caller run from the clean initial state —
probe, acquire the gate, re-check, install, release — reaches the terminal
state with exactly one install and the caller observing version 1.0.0. -/
theorem ensure_ready_single_install_witness :
    c4Final.installs = 1 ∧ c4Final.obs 0 = some ⟨1, 0, 0⟩ := by
  have h := ensure_ready_single_install 1 ⟨1, 0, 0⟩ c4Final (by decide)
    reach_c4Final
  obtain ⟨hi, ho⟩ := h.2 (fun _ => rfl)
  exact ⟨hi, ho 0⟩
